import Mathlib

/-!
Verification of the levenshtein-searching-algorithm repository.

Strings are modelled as `List Char`.  The two source files embedded here are
`src/utils/levenshtein.ts` (a dynamic-programming edit distance whose table is
a `Uint16Array`, so every stored cell is reduced modulo 2^16) and
`src/utils/fuzzySearch.ts` (normalization, n-gram generation, per-record
scoring with early returns, threshold filtering, stable sort, truncation and
a query-keyed cache).
-/

namespace LevSearch

/-- Embeds the `Uint16Array` cell storage of `src/utils/levenshtein.ts`:
every value written into the table is reduced modulo 2^16. -/
def u16 (n : Nat) : Nat := n % 65536

/-- Embeds the inner-loop assignment of `levenshtein` in
`src/utils/levenshtein.ts` (lines 14-21): `dp[i][j] = a[i-1] === b[j-1] ?
dp[i-1][j-1] : Math.min(dp[i-1][j-1]+1, dp[i][j-1]+1, dp[i-1][j]+1)`,
with the `Uint16Array` store wrapping the written value. -/
def nextCell (c d : Char) (diag left up : Nat) : Nat :=
  u16 (if c = d then diag else min (diag + 1) (min (left + 1) (up + 1)))

/-- Embeds the inner `for (let j = 1; j <= n; j++)` loop of `levenshtein`:
given the character `c = a[i-1]`, the cell to the left, the remaining
characters of `b` and the remaining cells of the previous row (starting at
the diagonal predecessor), produce the cells `dp[i][j..n]`. -/
def levRowGo (c : Char) : Nat → List Char → List Nat → List Nat
  | _, [], _ => []
  | _, _ :: _, [] => []
  | left, d :: ds, diag :: rest =>
    let cell := nextCell c d diag left (rest.headD 0)
    cell :: levRowGo c cell ds rest

/-- Embeds the outer `for (let i = 1; i <= m; i++)` loop of `levenshtein`:
each iteration replaces the previous row by the next one, whose first cell
is `dp[i][0] = i` (stored through the `Uint16Array`, hence `u16 i`). -/
def levLoop (b : List Char) : List Char → Nat → List Nat → List Nat
  | [], _, prev => prev
  | c :: cs, i, prev => levLoop b cs (i + 1) (u16 i :: levRowGo c (u16 i) b prev)

/-- Embeds `levenshtein` from `src/utils/levenshtein.ts`: the `m === 0` and
`n === 0` early returns, the first row `dp[0][j] = j` (stored in the
`Uint16Array`), the double loop, and the final read of `dp[m][n]`. -/
def levenshtein (a b : List Char) : Nat :=
  if a.length = 0 then b.length
  else if b.length = 0 then a.length
  else (levLoop b a 1 ((List.range (b.length + 1)).map u16)).getLastD 0

/-- Specification-side recursive edit distance (base cases and front
recurrence as in the spec of `EditDistance`), used to relate the DP table to
the minimal number of edit operations.  Pure `Nat` arithmetic, no wrapping. -/
def levSpec : List Char → List Char → Nat
  | [], ys => ys.length
  | x :: xs, [] => (x :: xs).length
  | x :: xs, y :: ys =>
    if x = y then levSpec xs ys
    else 1 + min (levSpec xs ys) (min (levSpec (x :: xs) ys) (levSpec xs (y :: ys)))
termination_by xs ys => xs.length + ys.length
decreasing_by all_goals simp_arith

/-- The relation `Edits a b n` holds when `a` can be transformed into `b` using exactly
`n` single-character substitutions, deletions and insertions (with matching
characters carried over for free).  This is the standard alignment
formalization of "minimum number of single-character insertions, deletions,
or substitutions required to transform `a` into `b`". -/
inductive Edits : List Char → List Char → Nat → Prop
  | nil : Edits [] [] 0
  | copy (c : Char) {xs ys : List Char} {n : Nat} :
      Edits xs ys n → Edits (c :: xs) (c :: ys) n
  | subst (c d : Char) {xs ys : List Char} {n : Nat} :
      Edits xs ys n → Edits (c :: xs) (d :: ys) (n + 1)
  | delete (c : Char) {xs ys : List Char} {n : Nat} :
      Edits xs ys n → Edits (c :: xs) ys (n + 1)
  | insert (d : Char) {xs ys : List Char} {n : Nat} :
      Edits xs ys n → Edits xs (d :: ys) (n + 1)

/-- One row of specification values: `rowSpec xs ys bs` lists the distances
from `xs` to `ys`, `ys ++ [b0]`, `ys ++ [b0, b1]`, ... for the successive
prefixes of `bs` appended to `ys`. -/
def rowSpec : List Char → List Char → List Char → List Nat
  | xs, ys, [] => [levSpec xs ys]
  | xs, ys, d :: ds => levSpec xs ys :: rowSpec xs (ys ++ [d]) ds

/-- Embeds the ASCII fragment of `String.prototype.toLowerCase` as used by
`normalize` in `src/utils/fuzzySearch.ts`: code points 65-90 (`A`-`Z`) shift
to 97-122 (`a`-`z`), everything else is kept.  The subsequent regex filter
keeps only ASCII `[a-z0-9 ]`, and on ASCII text this mapping agrees exactly
with JavaScript (exotic non-ASCII lowerings such as the Kelvin sign are not
modelled). -/
def jsToLower (c : Char) : Char :=
  if 65 ≤ c.toNat ∧ c.toNat ≤ 90 then Char.ofNat (c.toNat + 32) else c

/-- Embeds the character class of the regex `[^a-z0-9 ]+` in `normalize`:
a character survives `.replace(/[^a-z0-9 ]+/g, "")` iff it is kept here,
i.e. iff its code point is in `a`-`z` (97-122), `0`-`9` (48-57), or is the
space 32. -/
def isKept (c : Char) : Bool :=
  (97 ≤ c.toNat && c.toNat ≤ 122) || (48 ≤ c.toNat && c.toNat ≤ 57) || c.toNat == 32

/-- Embeds `.trim()` as applied in `normalize`.  After the regex filter the
only whitespace character left is the plain space, so trimming is dropping
leading and trailing spaces. -/
def trimSpaces (l : List Char) : List Char :=
  ((l.dropWhile (fun c => c = ' ')).reverse.dropWhile (fun c => c = ' ')).reverse

/-- Embeds `normalize` from `src/utils/fuzzySearch.ts` (lines 5-7):
`str.toLowerCase().replace(/[^a-z0-9 ]+/g, "").trim()`. -/
def normalize (s : List Char) : List Char :=
  trimSpaces ((s.map jsToLower).filter isKept)

/-- Embeds `String(item[key])` for a field that holds text or is absent:
JavaScript renders the `undefined` of a missing property as the nine-letter
string `"undefined"`. -/
def jsString : Option (List Char) → List Char
  | some s => s
  | none => "undefined".toList

/-- Embeds `.split(/\s+/)` as used on normalized text in `fuzzySearch`.
Normalized text is trimmed and its only whitespace is the space character, so
the split yields the maximal space-free runs; the leading-empty-token
artefact of JavaScript `split` cannot arise on trimmed input. -/
def splitWs (l : List Char) : List (List Char) :=
  (l.foldr
    (fun c acc =>
      if c = ' ' then [] :: acc
      else
        match acc with
        | [] => [[c]]
        | w :: ws => (c :: w) :: ws)
    [[]]).filter (fun w => w ≠ [])

/-- Embeds `generateNGrams` from `src/utils/fuzzySearch.ts` (lines 9-17):
for each run length `n = 1 .. maxN` and each start `i` with
`i <= words.length - n`, the phrase `words.slice(i, i + n).join(" ")`.
When `n > words.length` the JavaScript loop bound is negative and the inner
loop does not run, hence the guard. -/
def generateNGrams (words : List (List Char)) (maxN : Nat) : List (List Char) :=
  ((List.range maxN).map (fun n0 =>
    let n := n0 + 1
    if n ≤ words.length then
      (List.range (words.length - n + 1)).map
        (fun i => List.intercalate [' '] ((words.drop i).take n))
    else [])).flatten

/-- Embeds the `for (const key of keys)` scoring loop of `fuzzySearch`
(lines 36-59) over the already-extracted field values, threading the mutable
`bestScore` (`⊤` models `Infinity`).  The `return {item, score: 0}` and
`return {item, score: 1}` statements short-circuit the whole loop. -/
def scoreGo (nq : List Char) (qwc : Nat) : List (Option (List Char)) → ℕ∞ → ℕ∞
  | [], best => best
  | f :: fs, best =>
    let fv := normalize (jsString f)
    if fv = [] then scoreGo nq qwc fs best
    else if fv = nq then ((0 : Nat) : ℕ∞)
    else if nq <+: fv then ((1 : Nat) : ℕ∞)
    else
      let b1 := if nq <:+: fv then min best ((2 : Nat) : ℕ∞) else best
      let b2 := (generateNGrams (splitWs fv) (qwc + 1)).foldl
        (fun b p => min b ((levenshtein p nq : Nat) : ℕ∞)) b1
      let b3 := min b2 ((levenshtein fv nq : Nat) : ℕ∞)
      scoreGo nq qwc fs b3

/-- The score the `.map` callback of `fuzzySearch` assigns to one record,
given the listed field values: the loop starts with `bestScore = Infinity`. -/
def scoreFields (fields : List (Option (List Char))) (nq : List Char) (qwc : Nat) : ℕ∞ :=
  scoreGo nq qwc fields ⊤

/-- The score of a record `it` under the accessor list `keys`: field access
`item[key]` is modelled by applying the accessor. -/
def recordScore {T : Type} (keys : List (T → Option (List Char)))
    (nq : List Char) (qwc : Nat) (it : T) : ℕ∞ :=
  scoreFields (keys.map (fun k => k it)) nq qwc

/-- Embeds `threshold ?? Math.max(3, Math.floor(normalizedQuery.length * 0.45))`
(line 29).  The source multiplies by the double `0.45`; for every length
below 2^49 the floored product coincides with exact arithmetic, so the
derivation is modelled as `45 * length / 100` in `Nat`. -/
def effectiveThreshold (threshold : Option Nat) (nq : List Char) : Nat :=
  threshold.getD (max 3 (45 * nq.length / 100))

/-- Embeds the `.sort((a, b) => a.score - b.score)` step (line 62).
ECMAScript specifies `Array.prototype.sort` to be stable, and every score
reaching the sort is finite (the `Infinity` scores were filtered out), so the
step is a stable ascending sort by score, modelled by insertion sort. -/
def sortByScore {T : Type} (l : List (T × ℕ∞)) : List (T × ℕ∞) :=
  l.insertionSort (fun x y => x.2 ≤ y.2)

instance scoreRelTotal (T : Type) : IsTotal (T × ℕ∞) (fun x y => x.2 ≤ y.2) :=
  ⟨fun a b => le_total a.2 b.2⟩

instance scoreRelTrans (T : Type) : IsTrans (T × ℕ∞) (fun x y => x.2 ≤ y.2) :=
  ⟨fun _ _ _ h1 h2 => le_trans h1 h2⟩

/-- Result of one `fuzzySearch` call: the returned records, the cache after
the call, and the number of records the scoring step ran on (`0` when the
call short-circuits on query length or on a cache hit). -/
structure SearchOut (T : Type) where
  result : List T
  cache : List ((List Char × Nat × Nat) × List T)
  scoreCalls : Nat

/-- Embeds `fuzzySearch` from `src/utils/fuzzySearch.ts` (lines 19-68).
The module-global `Map` cache is made an explicit argument and result; the
source's cache key is the string `` `${normalizedQuery}-${effectiveThreshold}-${limit}` ``,
which on normalized queries (no dash can survive normalization) renders the
triple `(normalizedQuery, effectiveThreshold, limit)` injectively, so the
key is modelled as that triple.  `scoreCalls` counts how many records the
`.map` scoring callback ran on. -/
def fuzzySearch {T : Type} (items : List T) (query : List Char)
    (keys : List (T → Option (List Char))) (threshold : Option Nat) (limit : Nat)
    (cache : List ((List Char × Nat × Nat) × List T)) : SearchOut T :=
  let nq := normalize query
  if nq.length < 3 then ⟨[], cache, 0⟩
  else
    let eff := effectiveThreshold threshold nq
    let key := (nq, eff, limit)
    match cache.lookup key with
    | some res => ⟨res, cache, 0⟩
    | none =>
      let qwc := (splitWs nq).length
      let scored := items.map (fun it => (it, recordScore keys nq qwc it))
      let filtered := scored.filter (fun p => p.2 ≤ ((eff : Nat) : ℕ∞))
      let sorted := sortByScore filtered
      let res := (sorted.take limit).map (fun p => p.1)
      ⟨res, (key, res) :: cache, items.length⟩

/-- Modelled from the spec's words for claim C4 ("the record's final score
equals the minimum, over all listed fields with non-empty normalized value,
of: 2 if the field contains the normalized query as a substring, the edit
distances between the normalized query and every phrase of
1..(queryWordCount+1) consecutive field words, and the edit distance between
the entire normalized field and the normalized query"): the minimum of the
listed signals for one field value. -/
def specFieldScore (fv nq : List Char) (qwc : Nat) : ℕ∞ :=
  ((if nq <:+: fv then [((2 : Nat) : ℕ∞)] else []) ++
    (generateNGrams (splitWs fv) (qwc + 1)).map (fun p => ((levenshtein p nq : Nat) : ℕ∞)) ++
    [((levenshtein fv nq : Nat) : ℕ∞)]).foldr min ⊤

/-- Modelled from the spec's words for claim C4: the minimum of
`specFieldScore` over all listed fields with non-empty normalized value,
`⊤` (meaning no match) when there is no such field. -/
def specScore (fields : List (Option (List Char))) (nq : List Char) (qwc : Nat) : ℕ∞ :=
  (((fields.map (fun f => normalize (jsString f))).filter (fun v => v ≠ [])).map
    (fun fv => specFieldScore fv nq qwc)).foldr min ⊤

/-! ### Lemmas about trimming and normalization -/

theorem dropWhile_idem {α : Type} (p : α → Bool) (l : List α) :
    List.dropWhile p (List.dropWhile p l) = List.dropWhile p l := by
  induction l with
  | nil => rfl
  | cons a l ih =>
    by_cases h : p a = true <;> simp [List.dropWhile_cons, h, ih]

theorem dropWhile_of_isPre {α : Type} (p : α → Bool) {t l : List α}
    (hl : List.dropWhile p l = l) (ht : t <+: l) : List.dropWhile p t = t := by
  cases t with
  | nil => rfl
  | cons a t' =>
    obtain ⟨r, hr⟩ := ht
    subst hr
    rw [List.cons_append] at hl
    cases hpa : p a with
    | true =>
      exfalso
      rw [List.dropWhile_cons, if_pos hpa] at hl
      have hle := (List.dropWhile_sublist (l := t' ++ r) p).length_le
      rw [hl] at hle
      simp at hle
    | false =>
      rw [List.dropWhile_cons, if_neg (by simp [hpa])]

theorem trimSpaces_idem (l : List Char) : trimSpaces (trimSpaces l) = trimSpaces l := by
  unfold trimSpaces
  set p : Char → Bool := fun c => decide (c = ' ') with hp
  set L1 := List.dropWhile p l with hL1
  have hL1trim : List.dropWhile p L1 = L1 := dropWhile_idem p l
  set T := (List.dropWhile p L1.reverse).reverse with hT
  have hTpre : T <+: L1 := by
    rw [← List.reverse_suffix]
    simpa [hT] using List.dropWhile_suffix (l := L1.reverse) p
  have hTleft : List.dropWhile p T = T := dropWhile_of_isPre p hL1trim hTpre
  rw [hTleft, hT, List.reverse_reverse, dropWhile_idem]

theorem mem_trimSpaces {c : Char} {l : List Char} (h : c ∈ trimSpaces l) : c ∈ l := by
  unfold trimSpaces at h
  rw [List.mem_reverse] at h
  have h1 := (List.dropWhile_sublist _).mem h
  rw [List.mem_reverse] at h1
  exact (List.dropWhile_sublist _).mem h1

theorem isKept_of_mem_normalize {c : Char} {s : List Char} (h : c ∈ normalize s) :
    isKept c = true := by
  unfold normalize at h
  exact List.of_mem_filter (mem_trimSpaces h)

theorem jsToLower_of_isKept {c : Char} (h : isKept c = true) : jsToLower c = c := by
  unfold isKept at h
  unfold jsToLower
  rw [if_neg]
  intro ⟨h1, h2⟩
  simp only [Bool.or_eq_true, Bool.and_eq_true, decide_eq_true_eq, beq_iff_eq] at h
  omega

/-- C9: `normalize` is a pure function of its input (it is a Lean `def`),
and it is idempotent: `normalize (normalize s) = normalize s`. -/
theorem normalize_idempotent (s : List Char) : normalize (normalize s) = normalize s := by
  have hmap : (normalize s).map jsToLower = normalize s := by
    conv_rhs => rw [← List.map_id (normalize s)]
    exact List.map_congr_left (fun c hc => jsToLower_of_isKept (isKept_of_mem_normalize hc))
  have hfilter : (normalize s).filter isKept = normalize s :=
    List.filter_eq_self.mpr (fun c hc => isKept_of_mem_normalize hc)
  show trimSpaces (((normalize s).map jsToLower).filter isKept) = normalize s
  rw [hmap, hfilter]
  show trimSpaces (trimSpaces ((s.map jsToLower).filter isKept)) =
    trimSpaces ((s.map jsToLower).filter isKept)
  rw [trimSpaces_idem]

/-! ### The short-length guard, threshold derivation, and the cache -/

/-- C5: when the normalized query is shorter than three characters, the
search returns the empty sequence, whatever the records, fields, threshold,
limit and cache are. -/
theorem search_short_query_empty {T : Type} (items : List T) (query : List Char)
    (keys : List (T → Option (List Char))) (threshold : Option Nat) (limit : Nat)
    (cache : List ((List Char × Nat × Nat) × List T))
    (h : (normalize query).length < 3) :
    (fuzzySearch items query keys threshold limit cache).result = [] := by
  unfold fuzzySearch
  rw [if_pos h]

/-- Witness for C5 at a concrete input: the query `"hi"` normalizes to two
characters, and the search over a nonempty record list returns nothing. -/
theorem search_short_query_empty_witness :
    (normalize ("hi".toList)).length < 3 ∧
      (fuzzySearch [()] ("hi".toList) [fun _ => some ("hi".toList)] none 5 []).result = [] :=
  ⟨by decide, search_short_query_empty [()] ("hi".toList) [fun _ => some ("hi".toList)] none 5 []
    (by decide)⟩

/-- C6: a call without an explicit threshold behaves exactly like a call
whose threshold is `max 3 (floor (0.45 * normalizedQueryLength))` — the
derived value is what filtering and the cache key use — and on the query
`"hello"` (normalized length 5) the derived threshold is 3. -/
theorem default_threshold_spec {T : Type} (items : List T) (query : List Char)
    (keys : List (T → Option (List Char))) (limit : Nat)
    (cache : List ((List Char × Nat × Nat) × List T)) :
    fuzzySearch items query keys none limit cache =
      fuzzySearch items query keys (some (max 3 (45 * (normalize query).length / 100)))
        limit cache ∧
    (∀ nq : List Char, effectiveThreshold none nq = max 3 (45 * nq.length / 100)) ∧
    effectiveThreshold none (normalize ("hello".toList)) = 3 := by
  refine ⟨?_, fun nq => rfl, by decide⟩
  unfold fuzzySearch effectiveThreshold
  rfl

/-- When the query is long enough and the cache already holds the key, the
call returns the cached sequence verbatim, leaves the cache unchanged and
scores no record. -/
theorem fuzzySearch_hit {T : Type} (items : List T) (query : List Char)
    (keys : List (T → Option (List Char))) (threshold : Option Nat) (limit : Nat)
    (cache : List ((List Char × Nat × Nat) × List T)) (r : List T)
    (h : ¬ (normalize query).length < 3)
    (hl : cache.lookup
      (normalize query, effectiveThreshold threshold (normalize query), limit) = some r) :
    fuzzySearch items query keys threshold limit cache = ⟨r, cache, 0⟩ := by
  simp only [fuzzySearch]
  rw [if_neg h]
  simp only [hl]

/-- After any sufficiently long-query call, the returned cache maps the
call's key to the call's result. -/
theorem fuzzySearch_caches_result {T : Type} (items : List T) (query : List Char)
    (keys : List (T → Option (List Char))) (threshold : Option Nat) (limit : Nat)
    (cache : List ((List Char × Nat × Nat) × List T))
    (h : ¬ (normalize query).length < 3) :
    (fuzzySearch items query keys threshold limit cache).cache.lookup
        (normalize query, effectiveThreshold threshold (normalize query), limit) =
      some (fuzzySearch items query keys threshold limit cache).result := by
  rcases hl : cache.lookup
      (normalize query, effectiveThreshold threshold (normalize query), limit) with _ | res
  · simp only [fuzzySearch]
    rw [if_neg h]
    simp only [hl]
    simp [List.lookup_cons]
  · rw [fuzzySearch_hit items query keys threshold limit cache res h hl]
    exact hl

/-- C8: calling `fuzzySearch` twice in a row with identical arguments (the
second call receiving the cache produced by the first) yields structurally
equal results, and the second call invokes the scoring step on no record. -/
theorem cache_second_call {T : Type} (items : List T) (query : List Char)
    (keys : List (T → Option (List Char))) (threshold : Option Nat) (limit : Nat)
    (cache : List ((List Char × Nat × Nat) × List T)) :
    (fuzzySearch items query keys threshold limit
        (fuzzySearch items query keys threshold limit cache).cache).result =
      (fuzzySearch items query keys threshold limit cache).result ∧
    (fuzzySearch items query keys threshold limit
        (fuzzySearch items query keys threshold limit cache).cache).scoreCalls = 0 := by
  by_cases h : (normalize query).length < 3
  · constructor <;> simp [fuzzySearch, h]
  · have hsecond := fuzzySearch_hit items query keys threshold limit
      (fuzzySearch items query keys threshold limit cache).cache
      (fuzzySearch items query keys threshold limit cache).result h
      (fuzzySearch_caches_result items query keys threshold limit cache h)
    rw [hsecond]
    exact ⟨rfl, rfl⟩

/-! ### The recursive edit distance and its characterization as a minimum -/

theorem levSpec_nil_left (ys : List Char) : levSpec [] ys = ys.length := by
  simp [levSpec]

theorem levSpec_nil_right (xs : List Char) : levSpec xs [] = xs.length := by
  cases xs <;> simp [levSpec]

theorem levSpec_cons_cons (x y : Char) (xs ys : List Char) :
    levSpec (x :: xs) (y :: ys) =
      if x = y then levSpec xs ys
      else 1 + min (levSpec xs ys) (min (levSpec (x :: xs) ys) (levSpec xs (y :: ys))) := by
  simp [levSpec]

theorem edits_nil_left : ∀ ys : List Char, Edits [] ys ys.length
  | [] => .nil
  | d :: ys => .insert d (edits_nil_left ys)

theorem edits_nil_right : ∀ xs : List Char, Edits xs [] xs.length
  | [] => .nil
  | c :: xs => .delete c (edits_nil_right xs)

/-- The value computed by the recursive distance is achieved by an actual
edit script. -/
theorem edits_levSpec : ∀ a b : List Char, Edits a b (levSpec a b) := by
  intro a b
  induction a, b using levSpec.induct with
  | case1 ys => rw [levSpec_nil_left]; exact edits_nil_left ys
  | case2 x xs => rw [levSpec_nil_right]; exact edits_nil_right (x :: xs)
  | case3 xs y ys ih =>
    rw [levSpec_cons_cons, if_pos rfl]
    exact .copy y ih
  | case4 x xs y ys hxy ih1 ih2 ih3 =>
    rw [levSpec_cons_cons, if_neg hxy]
    rcases min_choice (levSpec xs ys) (min (levSpec (x :: xs) ys) (levSpec xs (y :: ys)))
      with h1 | h1
    · rw [h1, Nat.add_comm]; exact .subst x y ih1
    · rw [h1]
      rcases min_choice (levSpec (x :: xs) ys) (levSpec xs (y :: ys)) with h2 | h2
      · rw [h2, Nat.add_comm]; exact .insert y ih2
      · rw [h2, Nat.add_comm]; exact .delete x ih3

/-- The distance is at least the length difference of the two strings. -/
theorem levSpec_length_bound : ∀ a b : List Char,
    a.length ≤ levSpec a b + b.length ∧ b.length ≤ levSpec a b + a.length := by
  intro a b
  induction a, b using levSpec.induct with
  | case1 ys => rw [levSpec_nil_left]; simp
  | case2 x xs => rw [levSpec_nil_right]; simp
  | case3 xs y ys ih =>
    rw [levSpec_cons_cons, if_pos rfl]
    simp only [List.length_cons]
    omega
  | case4 x xs y ys hxy ih1 ih2 ih3 =>
    rw [levSpec_cons_cons, if_neg hxy]
    simp only [List.length_cons] at ih1 ih2 ih3 ⊢
    omega

/-- Removing or adding one leading character on either side changes the
recursive distance by at most one. -/
theorem levSpec_step_bounds : ∀ (N : Nat) (xs ys : List Char), xs.length + ys.length ≤ N →
    (∀ c, levSpec (c :: xs) ys ≤ levSpec xs ys + 1) ∧
    (∀ d, levSpec xs (d :: ys) ≤ levSpec xs ys + 1) ∧
    (∀ c, levSpec xs ys ≤ levSpec (c :: xs) ys + 1) ∧
    (∀ d, levSpec xs ys ≤ levSpec xs (d :: ys) + 1) := by
  intro N
  induction N with
  | zero =>
    intro xs ys hlen
    have hxs : xs = [] := List.length_eq_zero.mp (by omega)
    have hys : ys = [] := List.length_eq_zero.mp (by omega)
    subst hxs hys
    refine ⟨fun c => ?_, fun d => ?_, fun c => ?_, fun d => ?_⟩ <;>
      simp [levSpec_nil_left, levSpec_nil_right]
  | succ N ih =>
    intro xs ys hlen
    match xs, ys with
    | [], [] =>
      refine ⟨fun c => ?_, fun d => ?_, fun c => ?_, fun d => ?_⟩ <;>
        simp [levSpec_nil_left, levSpec_nil_right]
    | [], y :: ys =>
      refine ⟨fun c => ?_, fun d => ?_, fun c => ?_, fun d => ?_⟩
      · rw [levSpec_cons_cons]
        simp only [levSpec_nil_left, List.length_cons]
        split_ifs <;> omega
      · simp only [levSpec_nil_left, List.length_cons]; omega
      · have hlb := (levSpec_length_bound [c] (y :: ys)).2
        simp only [levSpec_nil_left, List.length_cons, List.length_singleton, List.length_nil] at hlb ⊢
        omega
      · simp only [levSpec_nil_left, List.length_cons]; omega
    | x :: xs, [] =>
      refine ⟨fun c => ?_, fun d => ?_, fun c => ?_, fun d => ?_⟩
      · simp only [levSpec_nil_right, List.length_cons]; omega
      · rw [levSpec_cons_cons]
        simp only [levSpec_nil_right, List.length_cons]
        split_ifs <;> omega
      · simp only [levSpec_nil_right, List.length_cons]; omega
      · have hlb := (levSpec_length_bound (x :: xs) [d]).1
        simp only [levSpec_nil_right, List.length_cons, List.length_singleton, List.length_nil] at hlb ⊢
        omega
    | x :: xs, y :: ys =>
      simp only [List.length_cons] at hlen
      refine ⟨fun c => ?_, fun d => ?_, fun c => ?_, fun d => ?_⟩
      · have hD := (ih (x :: xs) ys (by simp; omega)).2.2.2 y
        rw [levSpec_cons_cons c y]
        split_ifs with h
        · subst h; omega
        · omega
      · have hC := (ih xs (y :: ys) (by simp; omega)).2.2.1 x
        rw [levSpec_cons_cons x d]
        split_ifs with h
        · subst h; omega
        · omega
      · have hB := (ih (x :: xs) ys (by simp; omega)).2.1 y
        have hC2 := (ih (x :: xs) ys (by simp; omega)).2.2.1 c
        rw [levSpec_cons_cons c y]
        split_ifs with h
        · subst h; omega
        · omega
      · have hA := (ih xs (y :: ys) (by simp; omega)).1 x
        have hD2 := (ih xs (y :: ys) (by simp; omega)).2.2.2 d
        rw [levSpec_cons_cons x d]
        split_ifs with h
        · subst h; omega
        · omega

/-- Minimality: no edit script does better than the recursive distance. -/
theorem levSpec_le_of_edits {a b : List Char} {n : Nat} (h : Edits a b n) :
    levSpec a b ≤ n := by
  induction h with
  | nil => rw [levSpec_nil_left]; simp
  | copy c h ih => rw [levSpec_cons_cons]; simp only [if_pos rfl]; exact ih
  | subst c d h ih => rw [levSpec_cons_cons]; split_ifs <;> omega
  | delete c h ih =>
    rename_i xs ys n'
    have hA := (levSpec_step_bounds (xs.length + ys.length) xs ys le_rfl).1 c
    omega
  | insert d h ih =>
    rename_i xs ys n'
    have hB := (levSpec_step_bounds (xs.length + ys.length) xs ys le_rfl).2.1 d
    omega

/-- The recursive distance is exactly the least cost of an edit script. -/
theorem levSpec_isLeast (a b : List Char) : IsLeast {n | Edits a b n} (levSpec a b) :=
  ⟨edits_levSpec a b, fun _ hn => levSpec_le_of_edits hn⟩

/-- The distance never exceeds the longer input's length. -/
theorem levSpec_le_max : ∀ a b : List Char, levSpec a b ≤ max a.length b.length := by
  intro a b
  induction a, b using levSpec.induct with
  | case1 ys => rw [levSpec_nil_left]; simp
  | case2 x xs => rw [levSpec_nil_right]; simp
  | case3 xs y ys ih =>
    rw [levSpec_cons_cons, if_pos rfl]
    simp only [List.length_cons]
    omega
  | case4 x xs y ys hxy ih1 ih2 ih3 =>
    rw [levSpec_cons_cons, if_neg hxy]
    simp only [List.length_cons] at ih1 ih2 ih3 ⊢
    omega

/-! ### Reversal invariance and the snoc recurrence -/

theorem edits_snoc_copy (c : Char) {xs ys : List Char} {n : Nat} (h : Edits xs ys n) :
    Edits (xs ++ [c]) (ys ++ [c]) n := by
  induction h with
  | nil => exact .copy c .nil
  | copy d h ih => exact .copy d ih
  | subst d e h ih => exact .subst d e ih
  | delete d h ih => exact .delete d ih
  | insert e h ih => exact .insert e ih

theorem edits_snoc_subst (c d : Char) {xs ys : List Char} {n : Nat} (h : Edits xs ys n) :
    Edits (xs ++ [c]) (ys ++ [d]) (n + 1) := by
  induction h with
  | nil => exact .subst c d .nil
  | copy e h ih => exact .copy e ih
  | subst e f h ih => exact .subst e f ih
  | delete e h ih => exact .delete e ih
  | insert f h ih => exact .insert f ih

theorem edits_snoc_delete (c : Char) {xs ys : List Char} {n : Nat} (h : Edits xs ys n) :
    Edits (xs ++ [c]) ys (n + 1) := by
  induction h with
  | nil => exact .delete c .nil
  | copy e h ih => exact .copy e ih
  | subst e f h ih => exact .subst e f ih
  | delete e h ih => exact .delete e ih
  | insert f h ih => exact .insert f ih

theorem edits_snoc_insert (d : Char) {xs ys : List Char} {n : Nat} (h : Edits xs ys n) :
    Edits xs (ys ++ [d]) (n + 1) := by
  induction h with
  | nil => exact .insert d .nil
  | copy e h ih => exact .copy e ih
  | subst e f h ih => exact .subst e f ih
  | delete e h ih => exact .delete e ih
  | insert f h ih => exact .insert f ih

theorem edits_reverse {xs ys : List Char} {n : Nat} (h : Edits xs ys n) :
    Edits xs.reverse ys.reverse n := by
  induction h with
  | nil => exact .nil
  | copy c h ih =>
    rw [List.reverse_cons, List.reverse_cons]
    exact edits_snoc_copy c ih
  | subst c d h ih =>
    rw [List.reverse_cons, List.reverse_cons]
    exact edits_snoc_subst c d ih
  | delete c h ih =>
    rw [List.reverse_cons]
    exact edits_snoc_delete c ih
  | insert d h ih =>
    rw [List.reverse_cons]
    exact edits_snoc_insert d ih

theorem levSpec_reverse (xs ys : List Char) :
    levSpec xs.reverse ys.reverse = levSpec xs ys := by
  apply le_antisymm
  · exact levSpec_le_of_edits (edits_reverse (edits_levSpec xs ys))
  · have h := levSpec_le_of_edits (edits_reverse (edits_levSpec xs.reverse ys.reverse))
    rwa [List.reverse_reverse, List.reverse_reverse] at h

/-- The recurrence also holds when peeling the last characters: this is the
form used by the DP inner loop. -/
theorem levSpec_snoc (x y : Char) (xs ys : List Char) :
    levSpec (xs ++ [x]) (ys ++ [y]) =
      if x = y then levSpec xs ys
      else 1 + min (levSpec xs ys)
        (min (levSpec (xs ++ [x]) ys) (levSpec xs (ys ++ [y]))) := by
  have h1 : levSpec (xs ++ [x]) (ys ++ [y]) = levSpec (x :: xs.reverse) (y :: ys.reverse) := by
    rw [← levSpec_reverse]
    simp [List.reverse_append]
  have h2 : levSpec (xs ++ [x]) ys = levSpec (x :: xs.reverse) ys.reverse := by
    rw [← levSpec_reverse]
    simp [List.reverse_append]
  have h3 : levSpec xs (ys ++ [y]) = levSpec xs.reverse (y :: ys.reverse) := by
    rw [← levSpec_reverse]
    simp [List.reverse_append]
  rw [h1, levSpec_cons_cons, ← h2, ← h3, levSpec_reverse]

/-! ### The DP rows compute the recursive distance (below the wrap bound) -/

theorem levRowGo_cons (c d : Char) (left diag : Nat) (ds : List Char) (rest : List Nat) :
    levRowGo c left (d :: ds) (diag :: rest) =
      nextCell c d diag left (rest.headD 0) ::
        levRowGo c (nextCell c d diag left (rest.headD 0)) ds rest := rfl

theorem rowSpec_cons (xs ys : List Char) (d : Char) (ds : List Char) :
    rowSpec xs ys (d :: ds) = levSpec xs ys :: rowSpec xs (ys ++ [d]) ds := rfl

theorem rowSpec_headD (xs ys bs : List Char) (z : Nat) :
    (rowSpec xs ys bs).headD z = levSpec xs ys := by cases bs <;> rfl

theorem rowSpec_head_tail (xs ys bs : List Char) :
    rowSpec xs ys bs = levSpec xs ys :: (rowSpec xs ys bs).tail := by cases bs <;> rfl

theorem rowSpec_getLastD_any : ∀ (bs xs ys : List Char) (z : Nat),
    (rowSpec xs ys bs).getLastD z = levSpec xs (ys ++ bs) := by
  intro bs
  induction bs with
  | nil => intro xs ys z; simp [rowSpec]
  | cons d ds ih =>
    intro xs ys z
    rw [rowSpec_cons, List.getLastD_cons, ih, List.append_assoc, List.singleton_append]

theorem rowSpec_getLastD (xs ys bs : List Char) :
    (rowSpec xs ys bs).getLastD 0 = levSpec xs (ys ++ bs) :=
  rowSpec_getLastD_any bs xs ys 0

theorem rowSpec_nil : ∀ (bs ys : List Char),
    rowSpec [] ys bs = (List.range (bs.length + 1)).map (fun k => ys.length + k) := by
  intro bs
  induction bs with
  | nil =>
    intro ys
    simp [rowSpec, levSpec_nil_left, List.range_succ]
  | cons d ds ih =>
    intro ys
    rw [rowSpec_cons, ih (ys ++ [d]), levSpec_nil_left, List.length_cons]
    conv_rhs => rw [List.range_succ_eq_map]
    rw [List.map_cons, List.map_map]
    congr 1
    apply List.map_congr_left
    intro k hk
    simp only [Function.comp_apply, List.length_append, List.length_singleton]
    omega

/-- The cell update computes the true distance of the extended prefixes, as
long as every value stays below the `Uint16` wrap bound. -/
theorem nextCell_levSpec {xs ys : List Char} (c d : Char)
    (hx : xs.length + 1 ≤ 65535) (hy : ys.length + 1 ≤ 65535) :
    nextCell c d (levSpec xs ys) (levSpec (xs ++ [c]) ys) (levSpec xs (ys ++ [d])) =
      levSpec (xs ++ [c]) (ys ++ [d]) := by
  have h1 := levSpec_le_max xs ys
  have h2 := levSpec_le_max (xs ++ [c]) ys
  have h3 := levSpec_le_max xs (ys ++ [d])
  rw [levSpec_snoc]
  unfold nextCell u16
  simp only [List.length_append, List.length_singleton] at h2 h3
  split_ifs
  · omega
  · omega

theorem levRowGo_spec : ∀ (bs xs ys : List Char) (c : Char),
    xs.length + 1 ≤ 65535 → ys.length + bs.length ≤ 65535 →
    levRowGo c (levSpec (xs ++ [c]) ys) bs (rowSpec xs ys bs) =
      (rowSpec (xs ++ [c]) ys bs).tail := by
  intro bs
  induction bs with
  | nil => intro xs ys c h1 h2; rfl
  | cons d ds ih =>
    intro xs ys c h1 h2
    simp only [List.length_cons] at h2
    rw [rowSpec_cons xs ys d ds, levRowGo_cons, rowSpec_headD,
      nextCell_levSpec c d h1 (by omega),
      ih xs (ys ++ [d]) c h1 (by simp only [List.length_append, List.length_singleton]; omega)]
    rw [show (rowSpec (xs ++ [c]) ys (d :: ds)).tail = rowSpec (xs ++ [c]) (ys ++ [d]) ds
      from rfl]
    exact (rowSpec_head_tail _ _ _).symm

theorem levLoop_spec (b : List Char) (hb : b.length ≤ 65535) :
    ∀ (as xs : List Char), xs.length + as.length ≤ 65535 →
    levLoop b as (xs.length + 1) (rowSpec xs [] b) = rowSpec (xs ++ as) [] b := by
  intro as
  induction as with
  | nil => intro xs h; simp [levLoop]
  | cons c cs ih =>
    intro xs h
    simp only [List.length_cons] at h
    rw [show levLoop b (c :: cs) (xs.length + 1) (rowSpec xs [] b) =
      levLoop b cs (xs.length + 1 + 1)
        (u16 (xs.length + 1) :: levRowGo c (u16 (xs.length + 1)) b (rowSpec xs [] b))
      from rfl]
    have hu : u16 (xs.length + 1) = levSpec (xs ++ [c]) [] := by
      rw [levSpec_nil_right]
      simp only [List.length_append, List.length_singleton]
      unfold u16
      omega
    rw [hu, levRowGo_spec b xs [] c (by omega) (by simpa using hb), ← rowSpec_head_tail]
    have hrec := ih (xs ++ [c]) (by simp only [List.length_append, List.length_singleton]; omega)
    rw [show (xs ++ [c]).length + 1 = xs.length + 1 + 1 by simp] at hrec
    rw [hrec, List.append_assoc, List.singleton_append]

/-- On inputs whose lengths stay below the `Uint16` bound the DP computes the
recursive distance exactly. -/
theorem levenshtein_eq_levSpec (a b : List Char)
    (ha : a.length ≤ 65535) (hb : b.length ≤ 65535) :
    levenshtein a b = levSpec a b := by
  match a, b with
  | [], b => rw [levenshtein, levSpec_nil_left]; simp
  | x :: xs, [] => rw [levenshtein, levSpec_nil_right]; simp
  | x :: xs, y :: ys =>
    rw [levenshtein, if_neg (by simp), if_neg (by simp)]
    have hinit : (List.range ((y :: ys).length + 1)).map u16 = rowSpec [] [] (y :: ys) := by
      rw [rowSpec_nil]
      apply List.map_congr_left
      intro k hk
      rw [List.mem_range] at hk
      simp only [List.length_cons] at hk hb
      unfold u16
      simp only [List.length_nil]
      omega
    rw [hinit]
    have hloop := levLoop_spec (y :: ys) hb (x :: xs) [] (by simpa using ha)
    simp only [List.length_nil, List.nil_append] at hloop
    rw [hloop, rowSpec_getLastD]
    rw [List.nil_append]

/-! ### Claims C3 and C10, and the Uint16 wrap counterexample -/

/-- C3 (amended): `levenshtein` satisfies the stated base cases, and for
inputs of length at most 65535 each it returns exactly the minimum number of
single-character insertions, deletions, or substitutions transforming the
first string into the second.  (Beyond that length the `Uint16Array` cells
wrap modulo 2^16 and the result can be wrong, see the counterexample.) -/
theorem levenshtein_min_edits (a b : List Char) :
    (levenshtein a [] = a.length ∧ levenshtein [] b = b.length) ∧
    (a.length ≤ 65535 → b.length ≤ 65535 →
      IsLeast {n | Edits a b n} (levenshtein a b)) := by
  refine ⟨⟨?_, ?_⟩, ?_⟩
  · cases a <;> simp [levenshtein]
  · simp [levenshtein]
  · intro ha hb
    rw [levenshtein_eq_levSpec a b ha hb]
    exact levSpec_isLeast a b

/-- Witness for C3 at a concrete input: `levenshtein "kitten" "sitting"`
computes 3, and 3 is the least edit-script cost between those strings. -/
theorem levenshtein_min_edits_witness :
    levenshtein ("kitten".toList) ("sitting".toList) = 3 ∧
    IsLeast {n | Edits ("kitten".toList) ("sitting".toList) n}
      (levenshtein ("kitten".toList) ("sitting".toList)) :=
  ⟨by decide,
    (levenshtein_min_edits ("kitten".toList) ("sitting".toList)).2 (by decide) (by decide)⟩

/-- C10: for inputs of length at most 65535 each, the computed distance is
bounded by the length of the longer input. -/
theorem levenshtein_le_max_length (a b : List Char)
    (ha : a.length ≤ 65535) (hb : b.length ≤ 65535) :
    levenshtein a b ≤ max a.length b.length := by
  rw [levenshtein_eq_levSpec a b ha hb]
  exact levSpec_le_max a b

/-- Witness for C10 at a concrete input. -/
theorem levenshtein_le_max_length_witness :
    ("abcd".toList.length ≤ 65535 ∧ "xy".toList.length ≤ 65535) ∧
    levenshtein ("abcd".toList) ("xy".toList) ≤
      max ("abcd".toList.length) ("xy".toList.length) :=
  ⟨⟨by decide, by decide⟩,
    levenshtein_le_max_length ("abcd".toList) ("xy".toList) (by decide) (by decide)⟩

theorem levSpec_replicate_y_x : ∀ k : Nat, levSpec (List.replicate k 'y') ['x'] = max k 1 := by
  intro k
  induction k with
  | zero => rw [List.replicate_zero, levSpec_nil_left]; rfl
  | succ k ih =>
    rw [List.replicate_succ, levSpec_cons_cons, if_neg (by decide)]
    have h1 : levSpec (List.replicate k 'y') [] = k := by
      rw [levSpec_nil_right, List.length_replicate]
    have h2 : levSpec ('y' :: List.replicate k 'y') [] = k + 1 := by
      rw [levSpec_nil_right, List.length_cons, List.length_replicate]
    omega

/-- On the all-`y` string of length `65536 - i + 1` against `"x"`, starting
at row `i` from the row `[u16 (i-1), max (i-1) 1]`, the loop ends in the row
`[0, 1]`: at row 65536 the cell `dp[i][0]` wraps to 0 and poisons the
minimum. -/
theorem levLoop_wrap : ∀ (k i : Nat), 1 ≤ i → i + k = 65536 →
    levLoop ['x'] (List.replicate (k + 1) 'y') i [u16 (i - 1), max (i - 1) 1] = [0, 1] := by
  intro k
  induction k with
  | zero =>
    intro i h1 h2
    have hi : i = 65536 := by omega
    subst hi
    decide
  | succ k ih =>
    intro i h1 h2
    rw [List.replicate_succ]
    rw [show levLoop ['x'] ('y' :: List.replicate (k + 1) 'y') i [u16 (i - 1), max (i - 1) 1] =
      levLoop ['x'] (List.replicate (k + 1) 'y') (i + 1)
        (u16 i :: levRowGo 'y' (u16 i) ['x'] [u16 (i - 1), max (i - 1) 1]) from rfl]
    have hrow : levRowGo 'y' (u16 i) ['x'] [u16 (i - 1), max (i - 1) 1] = [max i 1] := by
      show [nextCell 'y' 'x' (u16 (i - 1)) (u16 i) ([max (i - 1) 1].headD 0)] = [max i 1]
      have hi : i ≤ 65535 := by omega
      unfold nextCell u16
      rw [if_neg (by decide)]
      congr 1
      simp only [List.headD_cons]
      omega
    rw [hrow]
    have h := ih (i + 1) (by omega) (by omega)
    simpa only [Nat.add_sub_cancel] using h

/-- The DP value at the wrapping input: the true distance is 65536, but the
table wraps and the function returns 1. -/
theorem levenshtein_wrap_value : levenshtein (List.replicate 65536 'y') ['x'] = 1 := by
  rw [levenshtein]
  rw [if_neg (by rw [List.length_replicate]; omega), if_neg (by simp)]
  have hinit : (List.range ((['x'] : List Char).length + 1)).map u16 =
      [u16 (1 - 1), max (1 - 1) 1] := by decide
  rw [hinit]
  have h := levLoop_wrap 65535 1 (by omega) (by omega)
  rw [show (65535 + 1 : Nat) = 65536 from rfl] at h
  rw [h]
  rfl

/-- Counterexample to C3 as stated ("for every pair of strings"): on the
string of 65536 copies of `y` against `"x"`, the function returns 1, while
the true minimum number of edit operations is 65536. -/
theorem levenshtein_wrap_counterexample :
    levenshtein (List.replicate 65536 'y') ['x'] = 1 ∧
    IsLeast {n | Edits (List.replicate 65536 'y') ['x'] n} 65536 := by
  refine ⟨levenshtein_wrap_value, ?_⟩
  have h := levSpec_isLeast (List.replicate 65536 'y') ['x']
  rw [levSpec_replicate_y_x, show max 65536 1 = 65536 by omega] at h
  exact h

/-! ### The stable sort: order and stability -/

theorem sortByScore_sorted {T : Type} (l : List (T × ℕ∞)) :
    List.Sorted (fun x y : T × ℕ∞ => x.2 ≤ y.2) (sortByScore l) :=
  List.sorted_insertionSort _ l

theorem mem_sortByScore {T : Type} {l : List (T × ℕ∞)} {p : T × ℕ∞} :
    p ∈ sortByScore l ↔ p ∈ l :=
  List.mem_insertionSort _

theorem filter_orderedInsert {T : Type} (x : T × ℕ∞) (s : ℕ∞) : ∀ L : List (T × ℕ∞),
    (List.orderedInsert (fun a b => a.2 ≤ b.2) x L).filter (fun p => p.2 = s) =
      if x.2 = s then x :: L.filter (fun p => p.2 = s) else L.filter (fun p => p.2 = s) := by
  intro L
  induction L with
  | nil =>
    by_cases hx : x.2 = s <;> simp [List.orderedInsert, List.filter_cons, hx]
  | cons y L ih =>
    rw [List.orderedInsert]
    by_cases hxy : x.2 ≤ y.2
    · rw [if_pos hxy]
      by_cases hx : x.2 = s <;> simp [List.filter_cons, hx]
    · rw [if_neg hxy, List.filter_cons]
      by_cases hy : y.2 = s
      · have hx : ¬ x.2 = s := by
          intro h
          exact hxy (le_of_eq (h.trans hy.symm))
        simp [hy, hx, ih, List.filter_cons]
      · simp [hy, ih, List.filter_cons]

/-- Stability of the modelled sort: each equal-score class comes out in its
input order. -/
theorem sortByScore_filter_stable {T : Type} (s : ℕ∞) : ∀ l : List (T × ℕ∞),
    (sortByScore l).filter (fun p => p.2 = s) = l.filter (fun p => p.2 = s) := by
  intro l
  induction l with
  | nil => rfl
  | cons x l ih =>
    show (List.orderedInsert _ x (sortByScore l)).filter _ = _
    rw [filter_orderedInsert, List.filter_cons]
    by_cases hx : x.2 = s <;> simp [hx, ih]

/-! ### Lemmas about the scoring loop -/

theorem scoreGo_skip_empty (nq : List Char) (qwc : Nat) (f : Option (List Char))
    (fs : List (Option (List Char))) (best : ℕ∞) (h : normalize (jsString f) = []) :
    scoreGo nq qwc (f :: fs) best = scoreGo nq qwc fs best := by
  simp [scoreGo, h]

theorem scoreGo_all_empty (nq : List Char) (qwc : Nat) :
    ∀ (fs : List (Option (List Char))) (best : ℕ∞),
    (∀ f ∈ fs, normalize (jsString f) = []) → scoreGo nq qwc fs best = best := by
  intro fs
  induction fs with
  | nil => intro best _; rfl
  | cons f fs ih =>
    intro best h
    rw [scoreGo_skip_empty nq qwc f fs best (h f (List.mem_cons_self f fs))]
    exact ih best (fun g hg => h g (List.mem_cons_of_mem f hg))

theorem scoreGo_coerce (nq : List Char) (qwc : Nat) :
    ∀ (fs : List (Option (List Char))) (best : ℕ∞),
    scoreGo nq qwc fs best = scoreGo nq qwc (fs.map (fun f => some (jsString f))) best := by
  intro fs
  induction fs with
  | nil => intro best; rfl
  | cons f fs ih =>
    intro best
    rw [List.map_cons]
    simp only [scoreGo]
    rw [show jsString (some (jsString f)) = jsString f from rfl]
    split_ifs <;> first | rfl | exact ih _

theorem scoreGo_exact (nq : List Char) (hnq : nq ≠ []) (qwc : Nat) :
    ∀ (pre : List (Option (List Char))) (k : Option (List Char))
      (post : List (Option (List Char))) (best : ℕ∞),
    (∀ f ∈ pre, nq <+: normalize (jsString f) → normalize (jsString f) = nq) →
    normalize (jsString k) = nq →
    scoreGo nq qwc (pre ++ k :: post) best = 0 := by
  intro pre
  induction pre with
  | nil =>
    intro k post best _ hk
    rw [List.nil_append]
    simp [scoreGo, hk, hnq]
  | cons f pre ih =>
    intro k post best hpre hk
    rw [List.cons_append]
    have hf := hpre f (List.mem_cons_self f pre)
    by_cases h1 : normalize (jsString f) = []
    · rw [scoreGo_skip_empty nq qwc f _ best h1]
      exact ih k post best (fun g hg => hpre g (List.mem_cons_of_mem f hg)) hk
    · by_cases h2 : normalize (jsString f) = nq
      · simp [scoreGo, h2, hnq]
      · have h3 : ¬ (nq <+: normalize (jsString f)) := fun hpf => h2 (hf hpf)
        simp only [scoreGo]
        rw [if_neg h1, if_neg h2, if_neg h3]
        exact ih k post _ (fun g hg => hpre g (List.mem_cons_of_mem f hg)) hk

theorem foldl_min_eq {α : Type} (g : α → ℕ∞) : ∀ (L : List α) (a : ℕ∞),
    L.foldl (fun b x => min b (g x)) a = min a (L.foldr (fun x m => min (g x) m) ⊤) := by
  intro L
  induction L with
  | nil => intro a; simp
  | cons x L ih =>
    intro a
    rw [List.foldl_cons, ih, List.foldr_cons, min_assoc]

theorem foldr_min_init {α : Type} (g : α → ℕ∞) : ∀ (L : List α) (c : ℕ∞),
    L.foldr (fun x m => min (g x) m) c = min (L.foldr (fun x m => min (g x) m) ⊤) c := by
  intro L
  induction L with
  | nil => intro c; rw [List.foldr_nil, List.foldr_nil, min_top_left]
  | cons x L ih =>
    intro c
    rw [List.foldr_cons, ih, List.foldr_cons, min_assoc]

theorem specScore_nil (nq : List Char) (qwc : Nat) : specScore [] nq qwc = ⊤ := rfl

theorem specScore_cons_empty {f : Option (List Char)} (fs : List (Option (List Char)))
    (nq : List Char) (qwc : Nat) (h : normalize (jsString f) = []) :
    specScore (f :: fs) nq qwc = specScore fs nq qwc := by
  simp [specScore, h]

theorem specScore_cons {f : Option (List Char)} (fs : List (Option (List Char)))
    (nq : List Char) (qwc : Nat) (h : normalize (jsString f) ≠ []) :
    specScore (f :: fs) nq qwc =
      min (specFieldScore (normalize (jsString f)) nq qwc) (specScore fs nq qwc) := by
  simp [specScore, h]

/-- Decomposition of the one-field specification minimum into its three
signal groups. -/
theorem specFieldScore_decomp (fv nq : List Char) (qwc : Nat) :
    specFieldScore fv nq qwc =
      min (if nq <:+: fv then ((2 : Nat) : ℕ∞) else ⊤)
        (min ((generateNGrams (splitWs fv) (qwc + 1)).foldr
            (fun p m => min ((levenshtein p nq : Nat) : ℕ∞) m) ⊤)
          ((levenshtein fv nq : Nat) : ℕ∞)) := by
  unfold specFieldScore
  rw [List.foldr_append, List.foldr_append]
  rw [show List.foldr min ⊤ [((levenshtein fv nq : Nat) : ℕ∞)] =
    min ((levenshtein fv nq : Nat) : ℕ∞) ⊤ from rfl]
  rw [min_top_right, List.foldr_map]
  rw [foldr_min_init (fun p => ((levenshtein p nq : Nat) : ℕ∞))]
  by_cases hin : nq <:+: fv
  · rw [if_pos hin, if_pos hin, List.foldr_cons, List.foldr_nil]
  · rw [if_neg hin, if_neg hin, List.foldr_nil, min_top_left]

/-- When a field fires neither the exact nor the prefix short-circuit, the
loop body folds exactly the claim's minimum for that field into the running
best score. -/
theorem scoreGo_min (nq : List Char) (qwc : Nat) :
    ∀ (fs : List (Option (List Char))) (best : ℕ∞),
    (∀ f ∈ fs, normalize (jsString f) ≠ [] →
      normalize (jsString f) ≠ nq ∧ ¬ (nq <+: normalize (jsString f))) →
    scoreGo nq qwc fs best = min best (specScore fs nq qwc) := by
  intro fs
  induction fs with
  | nil =>
    intro best _
    rw [specScore_nil, min_top_right]
    rfl
  | cons f fs ih =>
    intro best h
    by_cases h1 : normalize (jsString f) = []
    · rw [scoreGo_skip_empty nq qwc f fs best h1, specScore_cons_empty fs nq qwc h1]
      exact ih best (fun g hg => h g (List.mem_cons_of_mem f hg))
    · obtain ⟨h2, h3⟩ := h f (List.mem_cons_self f fs) h1
      simp only [scoreGo]
      rw [if_neg h1, if_neg h2, if_neg h3]
      rw [ih _ (fun g hg => h g (List.mem_cons_of_mem f hg))]
      rw [specScore_cons fs nq qwc h1, specFieldScore_decomp]
      rw [foldl_min_eq (fun p => ((levenshtein p nq : Nat) : ℕ∞))]
      by_cases hin : nq <:+: normalize (jsString f)
      · rw [if_pos hin, if_pos hin]
        simp only [min_assoc]
      · rw [if_neg hin, if_neg hin, min_top_left]
        simp only [min_assoc]

/-! ### The search pipeline -/

/-- On the non-cached path (empty starting cache) with a long-enough query
the result is: score, filter by threshold, stable-sort, truncate, project. -/
theorem fuzzySearch_result_eq {T : Type} (items : List T) (query : List Char)
    (keys : List (T → Option (List Char))) (t : Option Nat) (limit : Nat)
    (hq : ¬ (normalize query).length < 3) :
    (fuzzySearch items query keys t limit []).result =
      ((sortByScore ((items.map (fun it =>
          (it, recordScore keys (normalize query) ((splitWs (normalize query)).length) it))).filter
        (fun p => p.2 ≤ ((effectiveThreshold t (normalize query) : Nat) : ℕ∞)))).take limit).map
        (fun p => p.1) := by
  simp only [fuzzySearch]
  rw [if_neg hq]
  rfl

theorem fuzzySearch_result_short {T : Type} (items : List T) (query : List Char)
    (keys : List (T → Option (List Char))) (t : Option Nat) (limit : Nat)
    (hq : (normalize query).length < 3) :
    (fuzzySearch items query keys t limit []).result = [] := by
  simp only [fuzzySearch]
  rw [if_pos hq]

theorem mem_scored {T : Type} {items : List T} {keys : List (T → Option (List Char))}
    {nq : List Char} {qwc : Nat} {p : T × ℕ∞}
    (hp : p ∈ items.map (fun it => (it, recordScore keys nq qwc it))) :
    p.2 = recordScore keys nq qwc p.1 ∧ p.1 ∈ items := by
  rcases List.mem_map.mp hp with ⟨it, hit, rfl⟩
  exact ⟨rfl, hit⟩

/-- C7: in every search result on the non-cached path, records appear in
ascending order of their computed score, and for every score value the
records carrying it appear as an in-order selection (sublist) of the input
collection — the stable-sort tie-breaking. -/
theorem search_sorted_stable {T : Type} (items : List T) (query : List Char)
    (keys : List (T → Option (List Char))) (t : Option Nat) (limit : Nat) :
    List.Sorted (fun x y =>
        recordScore keys (normalize query) ((splitWs (normalize query)).length) x ≤
        recordScore keys (normalize query) ((splitWs (normalize query)).length) y)
      (fuzzySearch items query keys t limit []).result ∧
    ∀ s : ℕ∞,
      ((fuzzySearch items query keys t limit []).result.filter
          (fun it => recordScore keys (normalize query)
            ((splitWs (normalize query)).length) it = s)).Sublist
        (items.filter (fun it => recordScore keys (normalize query)
          ((splitWs (normalize query)).length) it = s)) := by
  by_cases hq : (normalize query).length < 3
  · rw [fuzzySearch_result_short items query keys t limit hq]
    exact ⟨List.sorted_nil, fun s => by simp⟩
  · have hres := fuzzySearch_result_eq items query keys t limit hq
    set nq := normalize query with hnq
    set qwc := (splitWs nq).length with hqwc
    set scored := items.map (fun it => (it, recordScore keys nq qwc it)) with hscored
    set filtered := scored.filter
      (fun p => p.2 ≤ ((effectiveThreshold t nq : Nat) : ℕ∞)) with hfiltered
    set S := sortByScore filtered with hS
    have hmemS : ∀ p ∈ S, p.2 = recordScore keys nq qwc p.1 := by
      intro p hp
      exact (mem_scored (List.mem_of_mem_filter (mem_sortByScore.mp hp))).1
    have hsor : List.Sorted (fun x y : T × ℕ∞ => x.2 ≤ y.2) S := sortByScore_sorted filtered
    have htake : List.Pairwise (fun x y : T × ℕ∞ => x.2 ≤ y.2) (S.take limit) :=
      List.Pairwise.sublist (List.take_sublist limit S) hsor
    constructor
    · rw [hres]
      apply List.pairwise_map.mpr
      refine List.Pairwise.imp_of_mem ?_ htake
      intro a b ha hb hab
      rw [← hmemS a (List.take_subset limit S ha), ← hmemS b (List.take_subset limit S hb)]
      exact hab
    · intro s
      rw [hres, List.filter_map]
      have hA : (S.take limit).filter
            ((fun it => decide (recordScore keys nq qwc it = s)) ∘ (fun p => p.1)) =
          (S.take limit).filter (fun p => p.2 = s) := by
        apply List.filter_congr
        intro q hq'
        simp only [Function.comp_apply]
        rw [hmemS q (List.take_subset limit S hq')]
      have hB : ((S.take limit).filter (fun p => p.2 = s)).Sublist
          (S.filter (fun p => p.2 = s)) :=
        List.Sublist.filter _ (List.take_sublist limit S)
      have hC : S.filter (fun p => p.2 = s) = filtered.filter (fun p => p.2 = s) :=
        sortByScore_filter_stable s filtered
      have hD : (filtered.filter (fun p => p.2 = s)).Sublist
          (scored.filter (fun p => p.2 = s)) :=
        List.Sublist.filter _ (List.filter_sublist scored)
      have hchain : ((S.take limit).filter (fun p => p.2 = s)).Sublist
          (scored.filter (fun p => p.2 = s)) := by
        rw [hC] at hB
        exact hB.trans hD
      have hE : ((scored.filter (fun p => p.2 = s)).map (fun q => q.1)) =
          items.filter (fun it => recordScore keys nq qwc it = s) := by
        rw [hscored, List.filter_map, List.map_map]
        rw [show ((fun q : T × ℕ∞ => q.1) ∘ (fun it => (it, recordScore keys nq qwc it))) =
          id from rfl]
        rw [List.map_id]
        exact List.filter_congr (fun it _ => rfl)
      rw [hA]
      have := List.Sublist.map (fun q : T × ℕ∞ => q.1) hchain
      rw [hE] at this
      exact this

/-- Counterexample to C1 as stated: the record's fields are
`"blue whale x"` then `"blue whale"` and the query is `"blue whale"`; the
second field normalizes exactly to the normalized query, yet the record's
overall score is 1, because the prefix short-circuit on the earlier field
returns before the exact field is examined. -/
theorem exact_match_counterexample :
    recordScore
      [fun _ : Nat => some ("blue whale x".toList), fun _ => some ("blue whale".toList)]
      (normalize ("blue whale".toList)) ((splitWs (normalize ("blue whale".toList))).length)
      0 = 1 := by decide

/-- C1 (amended): if some listed field of record `R` normalizes exactly to
the normalized query (length ≥ 3), and no earlier listed field is a proper
prefix-extension of the query (which would fire the prefix short-circuit
first), then `R`'s overall score is 0; and whenever a record with nonzero
score appears in the result, `R` appears at a strictly earlier position.
(A record without an exact-field match can also score 0 through an n-gram
hit and may precede `R` under stable tie-breaking, so "at or before any
record without an exact-field match" only holds against nonzero scores.) -/
theorem exact_match_ranks_first {T : Type} (items : List T) (query : List Char)
    (keys : List (T → Option (List Char))) (t : Option Nat) (limit : Nat) (R : T)
    (hR : R ∈ items) (hq : 3 ≤ (normalize query).length)
    (hex : ∃ pre k post, keys = pre ++ k :: post ∧
      normalize (jsString (k R)) = normalize query ∧
      ∀ k' ∈ pre, normalize query <+: normalize (jsString (k' R)) →
        normalize (jsString (k' R)) = normalize query) :
    recordScore keys (normalize query) ((splitWs (normalize query)).length) R = 0 ∧
    ∀ (j : Nat) (hj : j < (fuzzySearch items query keys t limit []).result.length),
      recordScore keys (normalize query) ((splitWs (normalize query)).length)
        ((fuzzySearch items query keys t limit []).result.get ⟨j, hj⟩) ≠ 0 →
      ∃ (i : Nat) (hi : i < (fuzzySearch items query keys t limit []).result.length),
        i < j ∧ (fuzzySearch items query keys t limit []).result.get ⟨i, hi⟩ = R := by
  set nq := normalize query with hnqdef
  set qwc := (splitWs nq).length with hqwcdef
  have hnqne : nq ≠ [] := by
    intro h
    rw [h] at hq
    simp at hq
  have hscore0 : recordScore keys nq qwc R = 0 := by
    obtain ⟨pre, k, post, hkeys, hk, hpre⟩ := hex
    unfold recordScore scoreFields
    rw [hkeys, List.map_append, List.map_cons]
    apply scoreGo_exact nq hnqne qwc (pre.map (fun k' => k' R)) (k R)
      (post.map (fun k' => k' R)) ⊤
    · intro f hf
      rcases List.mem_map.mp hf with ⟨k', hk', rfl⟩
      exact hpre k' hk'
    · exact hk
  refine ⟨hscore0, ?_⟩
  intro j hj hscorej
  have hq' : ¬ nq.length < 3 := by omega
  have hres := fuzzySearch_result_eq items query keys t limit hq'
  set scored := items.map (fun it => (it, recordScore keys nq qwc it)) with hscored
  set filtered := scored.filter
    (fun p => p.2 ≤ ((effectiveThreshold t nq : Nat) : ℕ∞)) with hfiltered
  set S := sortByScore filtered with hSdef
  have hlen : (fuzzySearch items query keys t limit []).result.length = min limit S.length := by
    rw [hres, List.length_map, List.length_take]
  have hjS : j < S.length := by
    rw [hlen] at hj
    omega
  have hjl : j < limit := by
    rw [hlen] at hj
    omega
  have hget : ∀ (i : Nat) (hiS : i < S.length) (hil : i < limit)
      (hir : i < (fuzzySearch items query keys t limit []).result.length),
      (fuzzySearch items query keys t limit []).result.get ⟨i, hir⟩ = (S.get ⟨i, hiS⟩).1 := by
    intro i hiS hil hir
    rw [List.get_eq_getElem, List.get_eq_getElem]
    simp only [hres, List.getElem_map, List.getElem_take]
  have hmemS : ∀ p ∈ S, p.2 = recordScore keys nq qwc p.1 := by
    intro p hp
    exact (mem_scored (List.mem_of_mem_filter (mem_sortByScore.mp hp))).1
  have hRmem : (R, (0 : ℕ∞)) ∈ S := by
    apply mem_sortByScore.mpr
    apply List.mem_filter.mpr
    constructor
    · exact List.mem_map.mpr ⟨R, hR, by rw [hscore0]⟩
    · simp
  obtain ⟨⟨p, hpS⟩, hpget⟩ := List.mem_iff_get.mp hRmem
  have hsor : List.Sorted (fun x y : T × ℕ∞ => x.2 ≤ y.2) S := sortByScore_sorted filtered
  have hscorej' : (S.get ⟨j, hjS⟩).2 ≠ 0 := by
    rw [hmemS (S.get ⟨j, hjS⟩) (List.get_mem S j hjS)]
    rw [← hget j hjS hjl hj]
    exact hscorej
  have hpj : p < j := by
    rcases Nat.lt_trichotomy p j with h | h | h
    · exact h
    · exfalso
      apply hscorej'
      rw [show (⟨j, hjS⟩ : Fin S.length) = ⟨p, hpS⟩ from by simp [h]]
      rw [hpget]
    · exfalso
      have hmono := List.pairwise_iff_get.mp hsor ⟨j, hjS⟩ ⟨p, hpS⟩ (by simpa using h)
      rw [hpget] at hmono
      exact hscorej' (nonpos_iff_eq_zero.mp hmono)
  refine ⟨p, lt_trans hpj hj, hpj, ?_⟩
  rw [hget p hpS (lt_trans hpj hjl) (lt_trans hpj hj), hpget]

/-- Witness for C1 at a concrete input: a single record whose single field is
exactly the query; its score is 0. -/
theorem exact_match_ranks_first_witness :
    recordScore [fun _ : Nat => some ("blue whale".toList)] (normalize ("blue whale".toList))
      ((splitWs (normalize ("blue whale".toList))).length) 0 = 0 :=
  (exact_match_ranks_first [0] ("blue whale".toList) [fun _ => some ("blue whale".toList)]
    none 5 0 (by decide) (by decide)
    ⟨[], fun _ => some ("blue whale".toList), [], rfl, by decide,
      fun _ hk' => absurd hk' (List.not_mem_nil _)⟩).1

/-- C4: when no field fires the exact or prefix short-circuit, the record's
score is the claim's minimum over all non-empty-normalized fields of the
substring-2 signal, the n-gram distances and the whole-field distance
(`specScore` transcribes the claim); a record all of whose listed fields
normalize to empty scores `⊤`; and no record with score `⊤` ever appears in
a search result. -/
theorem score_min_semantics {T : Type} (fields : List (Option (List Char))) (nq : List Char)
    (qwc : Nat) (items : List T) (query : List Char) (keys : List (T → Option (List Char)))
    (t : Option Nat) (limit : Nat) :
    ((∀ f ∈ fields, normalize (jsString f) ≠ [] →
        normalize (jsString f) ≠ nq ∧ ¬ (nq <+: normalize (jsString f))) →
      scoreFields fields nq qwc = specScore fields nq qwc) ∧
    ((∀ f ∈ fields, normalize (jsString f) = []) → scoreFields fields nq qwc = ⊤) ∧
    (∀ it ∈ (fuzzySearch items query keys t limit []).result,
      recordScore keys (normalize query) ((splitWs (normalize query)).length) it ≠ ⊤) := by
  refine ⟨?_, ?_, ?_⟩
  · intro h
    unfold scoreFields
    rw [scoreGo_min nq qwc fields ⊤ h, min_top_left]
  · intro h
    exact scoreGo_all_empty nq qwc fields ⊤ h
  · intro it hit
    by_cases hq : (normalize query).length < 3
    · rw [fuzzySearch_result_short items query keys t limit hq] at hit
      exact absurd hit (List.not_mem_nil it)
    · rw [fuzzySearch_result_eq items query keys t limit hq] at hit
      rcases List.mem_map.mp hit with ⟨p, hp, rfl⟩
      have hpS := List.take_subset limit _ hp
      have hpF := mem_sortByScore.mp hpS
      have hple := List.mem_filter.mp hpF
      have hsc := (mem_scored hple.1).1
      intro htop
      rw [← hsc] at htop
      have h2 := hple.2
      rw [htop] at h2
      simp [top_le_iff] at h2

/-- Witness for C4 at concrete inputs: a field with no special hit matches
the claim's minimum; an all-empty field list scores `⊤`; a record appearing
in a concrete search result has finite score. -/
theorem score_min_semantics_witness :
    (scoreFields [some ("abc".toList)] ("abd".toList) 1 =
      specScore [some ("abc".toList)] ("abd".toList) 1) ∧
    (scoreFields [some (" ".toList)] ("abd".toList) 1 = ⊤) ∧
    recordScore [fun _ : Unit => (none : Option (List Char))] (normalize ("undefined".toList))
      ((splitWs (normalize ("undefined".toList))).length) () ≠ ⊤ :=
  ⟨(score_min_semantics [some ("abc".toList)] ("abd".toList) 1 ([] : List Unit)
      ("abd".toList) [] none 5).1 (by decide),
   (score_min_semantics [some (" ".toList)] ("abd".toList) 1 ([] : List Unit)
      ("abd".toList) [] none 5).2.1 (by decide),
   (score_min_semantics [] ("x".toList) 0 [()] ("undefined".toList) [fun _ => none]
      none 5).2.2 () (by decide)⟩

/-- Counterexample to C2 as stated: listing a field that is absent from the
record changes the result.  With the query `"undefined"`, the record whose
listed field is absent scores 0 (JavaScript coerces the missing value to the
text `"undefined"`) and is returned, while the same search with no listed
field returns nothing. -/
theorem missing_field_counterexample :
    (fuzzySearch [()] ("undefined".toList) [fun _ => (none : Option (List Char))] none 5
      []).result = [()] ∧
    (fuzzySearch [()] ("undefined".toList) ([] : List (Unit → Option (List Char))) none 5
      []).result = [] :=
  ⟨by decide, by decide⟩

/-- C2 (amended): a listed field contributes nothing exactly when its
normalized text is empty (then the record scores as if the field were not
listed); an absent field is not skipped but coerced to the literal text
`"undefined"` and scored like an ordinary field holding that text. -/
theorem field_coercion_amended (fields : List (Option (List Char))) (nq : List Char)
    (qwc : Nat) (f : Option (List Char)) :
    (normalize (jsString f) = [] →
      scoreFields (f :: fields) nq qwc = scoreFields fields nq qwc) ∧
    scoreFields fields nq qwc =
      scoreFields (fields.map (fun x => some (jsString x))) nq qwc :=
  ⟨fun h => scoreGo_skip_empty nq qwc f fields ⊤ h, scoreGo_coerce nq qwc fields ⊤⟩

/-- Witness for C2 (amended) at concrete inputs: a field normalizing to
empty is skipped, and an absent field scores exactly like the literal text
`"undefined"`. -/
theorem field_coercion_amended_witness :
    (normalize (jsString (some [' '])) = [] ∧
      scoreFields [some [' ']] ("abc".toList) 1 = scoreFields [] ("abc".toList) 1) ∧
    scoreFields [none] ("xyz".toList) 1 =
      scoreFields [some ("undefined".toList)] ("xyz".toList) 1 :=
  ⟨⟨by decide, (field_coercion_amended [] ("abc".toList) 1 (some [' '])).1 (by decide)⟩,
   (field_coercion_amended [none] ("xyz".toList) 1 none).2⟩

end LevSearch
